import Mathlib

/-!
Shallow embedding of the fantasy-draft pipeline (scoring, scarcity/VORP,
rank/value, projection aggregation) and proofs about it.

Numbers are modelled as rationals (ℚ); Python float rounding is modelled
by exact round-half-to-even on ℚ; a missing key in a pandas row / dict is
modelled by `Option` (`none` = missing, direct indexing that would raise
KeyError makes the function return `none`).
-/

namespace FantasyDraft

/-- Round half to even to an integer, as CPython's builtin `round` does
on exact values. -/
def rhe (q : ℚ) : ℤ :=
  if q + 1/2 = ((⌊q + 1/2⌋ : ℤ) : ℚ) ∧ ¬ Even ⌊q + 1/2⌋ then ⌊q + 1/2⌋ - 1
  else ⌊q + 1/2⌋

/-- Python `round(x, 1)`: round to one decimal place, half to even. -/
def round1 (q : ℚ) : ℚ := (rhe (10 * q) : ℚ) / 10

/-- Python `astype(int)` / `int(...)` on a numeric value: truncation
toward zero. -/
def pyInt (q : ℚ) : ℤ := if 0 ≤ q then ⌊q⌋ else ⌈q⌉

/-- A pandas row as consumed by `scoring.calculate_points`: a primary
position label plus a partial mapping from stat names to numeric values
(`none` models a missing key: direct indexing raises `KeyError`). -/
structure Row where
  position : String
  stats : String → Option ℚ

/-- Build a stat lookup from an association list (a concrete row). -/
def statsOf (l : List (String × ℚ)) : String → Option ℚ :=
  fun s => (l.find? (fun e => e.1 == s)).map (·.2)

def hitter_positions : List String := ["C", "1B", "2B", "3B", "SS", "OF", "CI", "MI", "DH"]

def pitcher_positions : List String := ["SP", "RP", "P"]

/-- `src/scoring.py`, `calculate_points`.  Hitters read H, 2B, 3B, HR, R,
RBI, BB, K, SB by direct indexing (KeyError when absent → `none`) and CYC,
GSHR via `.get(_, 0)`.  Pitchers read IP, K, SV, QS, HLD by direct
indexing and ER, H_allowed (falling back to HA), BB_issued (falling back
to BBI), CG, NH, PG via `.get(_, 0)`.  Any other position scores 0. -/
def calculate_points (row : Row) : Option ℚ :=
  if row.position ∈ hitter_positions then do
    let h ← row.stats "H"
    let d2 ← row.stats "2B"
    let d3 ← row.stats "3B"
    let hr ← row.stats "HR"
    let r ← row.stats "R"
    let rbi ← row.stats "RBI"
    let bb ← row.stats "BB"
    let k ← row.stats "K"
    let sb ← row.stats "SB"
    let singles := h - d2 - d3 - hr
    let tb := singles + 2 * d2 + 3 * d3 + 4 * hr
    pure (r * 1 + tb * 1 + rbi * 1 + bb * 1 + k * (-1) + sb * 1
      + ((row.stats "CYC").getD 0) * 8 + ((row.stats "GSHR").getD 0) * 4)
  else if row.position ∈ pitcher_positions then do
    let ip ← row.stats "IP"
    let k ← row.stats "K"
    let sv ← row.stats "SV"
    let qs ← row.stats "QS"
    let hld ← row.stats "HLD"
    pure (ip * 3 + ((row.stats "ER").getD 0) * (-2) + k * 1 + sv * 5
      + (((row.stats "H_allowed").getD ((row.stats "HA").getD 0)) * (-1))
      + (((row.stats "BB_issued").getD ((row.stats "BBI").getD 0)) * (-1))
      + qs * 2 + ((row.stats "CG").getD 0) * 4 + ((row.stats "NH").getD 0) * 6
      + ((row.stats "PG").getD 0) * 10 + hld * 2)
  else
    some 0

/-! ## Scarcity engine (`src/scarcity.py`) -/

def TEAMS : ℕ := 12

/-- `scarcity.STARTERS`: starter-slot counts per roster slot. -/
def STARTERS : List (String × ℕ) :=
  [("C", 1 * TEAMS), ("1B", 1 * TEAMS), ("2B", 1 * TEAMS), ("3B", 1 * TEAMS),
   ("SS", 1 * TEAMS), ("OF", 4 * TEAMS), ("DH", 1 * TEAMS),
   ("SP", 5 * TEAMS), ("RP", 2 * TEAMS)]

/-- Lookup in `STARTERS` (`pos in pos_pools` / `STARTERS[pos]`). -/
def starterCount (pos : String) : Option ℕ :=
  (STARTERS.find? (fun e => e.1 == pos)).map (·.2)

/-- One row of the scored projections DataFrame, as read by
`compute_vorp`: name, primary position label, projected points. -/
structure Player where
  name : String
  position : String
  points : ℚ

/-- The eligibility dict produced by `load_eligibility`: player name →
ordered list of eligible position labels. -/
abbrev Eligibility := List (String × List String)

def eligLookup (elig : Eligibility) (n : String) : Option (List String) :=
  (elig.find? (fun e => e.1 == n)).map (·.2)

/-- `scarcity.get_all_positions`. -/
def get_all_positions (player_name : String) (primary_pos : String)
    (elig : Eligibility) : List String :=
  match eligLookup elig player_name with
  | some positions =>
      if primary_pos ∈ positions then positions else primary_pos :: positions
  | none => [primary_pos]

/-- The pool built for one starter slot by the row loop of
`compute_vorp`: each row appends its projected points once per occurrence
of that slot in its eligible-position list. -/
def rawPool (elig : Eligibility) (df : List Player) (pos : String) : List ℚ :=
  df.flatMap (fun p =>
    ((get_all_positions p.name p.position elig).filter (fun q => q == pos)).map
      (fun _ => p.points))

/-- The effective pool after `pos_pools["DH"] = pos_pools["OF"].copy()`. -/
def pool (elig : Eligibility) (df : List Player) (pos : String) : List ℚ :=
  if pos == "DH" then rawPool elig df "OF" else rawPool elig df pos

/-- `sorted(pool, reverse=True)`. -/
def sortDesc (l : List ℚ) : List ℚ := l.insertionSort (fun a b => a ≥ b)

/-- The replacement-level selection of `compute_vorp`:
`points[num_starters-1]` when the pool holds at least `num_starters`
players, else the minimum (`points[-1]`) of a non-empty pool, else `0`.
(The program only ever calls this with `ns ≥ 12`; for `ns = 0` and a
non-empty pool Python's `points[-1]` also yields the last element, which
the second branch mirrors.) -/
def replacementLevel (pl : List ℚ) (ns : ℕ) : ℚ :=
  let points := sortDesc pl
  if ns ≤ points.length ∧ ns ≠ 0 then points.getD (ns - 1) 0
  else if ¬ points.isEmpty then points.getLastD 0
  else 0

/-- `replacement_levels` dict: defined exactly on the `STARTERS` slots. -/
def replacement_levels (elig : Eligibility) (df : List Player)
    (pos : String) : Option ℚ :=
  (starterCount pos).map (fun ns => replacementLevel (pool elig df pos) ns)

/-- One iteration of the per-player best-VORP loop of `compute_vorp`:
skip a slot without a replacement level, otherwise keep the strictly
larger VORP (so the first slot achieving the maximum wins). -/
def vstep (rl : String → Option ℚ) (pts : ℚ) (acc : Option ℚ × String)
    (pos : String) : Option ℚ × String :=
  match rl pos with
  | none => acc
  | some r =>
      let v := pts - r
      match acc.1 with
      | none => (some v, pos)
      | some bv => if bv < v then (some v, pos) else acc

/-- The per-player best-VORP loop of `compute_vorp`, folding `vstep`
over the player's eligible positions starting from
`best_vorp = None, best_pos = primary`. -/
def bestFold (rl : String → Option ℚ) (pts : ℚ) (positions : List String)
    (primary : String) : Option ℚ × String :=
  positions.foldl (vstep rl pts) (none, primary)

/-- The VORP value and best position `compute_vorp` assigns to one row:
`round(best_vorp, 1)` when some eligible slot had a replacement level,
else `0.0` with the primary position. -/
def assignVorp (elig : Eligibility) (df : List Player) (p : Player) :
    ℚ × String :=
  let res := bestFold (replacement_levels elig df) p.points
      (get_all_positions p.name p.position elig) p.position
  (match res.1 with
   | some bv => round1 bv
   | none => 0, res.2)

/-- `compute_vorp`: the `VORP` / `Best_Pos` values assigned to each row
(in input row order; the final DataFrame additionally sorts rows by VORP
descending, which does not alter any row's assigned values). -/
def compute_vorp (elig : Eligibility) (df : List Player) :
    List (Player × ℚ × String) :=
  df.map (fun p => (p, assignVorp elig df p))

/-! ## Rank / market fusion (`src/rank.py`) -/

/-- Ordinal rank of an element in descending order with pandas's
`method="first"` tie-breaking: the number of strictly greater values,
plus the number of equal values at indices up to and including the
element's own.  `i` is the element's index, `v` its value. -/
def rankFirstOfDesc (l : List ℚ) (i : ℕ) (v : ℚ) : ℕ :=
  l.countP (fun y => decide (v < y)) + (l.take (i + 1)).countP (fun y => decide (y = v))

/-- Ordinal rank ascending with `method="first"` tie-breaking, as pandas
computes `ADP_Rank`. -/
def rankFirstOfAsc (l : List ℚ) (i : ℕ) (v : ℚ) : ℕ :=
  l.countP (fun y => decide (y < v)) + (l.take (i + 1)).countP (fun y => decide (y = v))

/-- pandas's default `method="average"` rank, descending: every element
of a tie group receives the arithmetic mean of the ordinal
(`method="first"`) ranks the group occupies. -/
def rankAvgDesc (l : List ℚ) (v : ℚ) : ℚ :=
  (((l.enum.filter (fun e => e.2 = v)).map
      (fun e => (rankFirstOfDesc l e.1 e.2 : ℚ))).sum)
    / (l.countP (fun y => decide (y = v)) : ℚ)

/-- Spec-side definition only (for comparison): dense rank descending —
one plus the number of *distinct* strictly greater values. -/
def rankDenseDesc (l : List ℚ) (v : ℚ) : ℕ :=
  l.dedup.countP (fun y => decide (v < y)) + 1

/-- Helper for reasoning about average ranks: the running 1-based
position-within-group of each occurrence of `v`, starting from `k`
occurrences already seen. -/
def prefixCounts (v : ℚ) : List ℚ → ℕ → List ℕ
  | [], _ => []
  | y :: ys, k =>
      if y = v then (k + 1) :: prefixCounts v ys (k + 1) else prefixCounts v ys k

/-- `rank.compute_value_score` applied to rows of (VORP, ADP):
`VORP_Rank = df["VORP"].rank(ascending=False).astype(int)` (pandas
default average method, truncated to int),
`ADP_Rank = df["ADP"].rank(ascending=True, method="first").astype(int)`,
`Value = ADP_Rank - VORP_Rank`.  Returns (VORP_Rank, ADP_Rank, Value)
per row. -/
def compute_value_score (rows : List (ℚ × ℚ)) : List (ℤ × ℤ × ℤ) :=
  let vorps := rows.map (·.1)
  let adps := rows.map (·.2)
  rows.enum.map (fun e =>
    let vr := pyInt (rankAvgDesc vorps e.2.1)
    let ar : ℤ := rankFirstOfAsc adps e.1 e.2.2
    (vr, ar, ar - vr))

/-! ## Projection aggregation (`scripts/combine_projections.py`) -/

/-- `combine_projections.WEIGHTS` (0.45 / 0.35 / 0.20). -/
def WEIGHTS : List (String × ℚ) := [("fp", 45/100), ("fg", 35/100), ("br", 20/100)]

def weightOf (s : String) : ℚ := ((WEIGHTS.find? (fun e => e.1 == s)).map (·.2)).getD 0

/-- `combine_projections.normalize_weights`: redistribute the configured
weights over the available sources.  (The Python function returns a dict
keyed by `available`; this returns the corresponding lookup.) -/
def normalize_weights (available : List String) : String → ℚ :=
  fun s => weightOf s / (available.map weightOf).sum

/-- One projection source as seen by the per-player stat loop of
`combine_projections`: whether the fuzzy match found this player, the
source's effective weight, and a partial stat lookup (`none` models a
missing column or a non-numeric/NaN value). -/
structure Src where
  matched : Bool
  weight : ℚ
  stats : String → Option ℚ

/-- The per-player, per-stat accumulation of `combine_projections`
(lines building `stat_vals` / `stat_weights` and the final division):
every matched source holding the stat contributes `value * weight` and
`weight`; the stat is `round(weightedSum / weightTotal, 1)` when any
contribution exists, else `0`. -/
def combineStat (srcs : List Src) (stat : String) : ℚ :=
  let msrcs := srcs.filter (·.matched)
  let stat_vals := msrcs.filterMap (fun s => (s.stats stat).map (· * s.weight))
  let stat_weights := msrcs.filterMap (fun s => (s.stats stat).map (fun _ => s.weight))
  if ¬ stat_weights.isEmpty then round1 (stat_vals.sum / stat_weights.sum)
  else 0

/-- The source-availability gate of `combine_projections` (its
`available` dict and the `RuntimeError` raised when it is empty). -/
def combine_available {α : Type} (fp fg br : Option α) :
    Except String (List (String × α)) :=
  let available := ([("fp", fp), ("fg", fg), ("br", br)] : List (String × Option α)).filterMap
    (fun e => e.2.map (fun d => (e.1, d)))
  if available.isEmpty then
    Except.error "No projection sources available. Run fetch scripts first."
  else
    Except.ok available

/-! ## Rounding lemmas -/

theorem rhe_mono {q q' : ℚ} (h : q ≤ q') : rhe q ≤ rhe q' := by
  have hf : ⌊q + 1/2⌋ ≤ ⌊q' + 1/2⌋ := Int.floor_mono (by linarith)
  unfold rhe
  split <;> split <;> rename_i h1 h2
  · omega
  · omega
  · rcases lt_or_eq_of_le hf with hlt | heq
    · omega
    · exfalso
      have hle1 : ((⌊q + 1/2⌋ : ℤ) : ℚ) ≤ q + 1/2 := Int.floor_le _
      have hle2 : q + 1/2 ≤ q' + 1/2 := by linarith
      have hexact : q + 1/2 = ((⌊q + 1/2⌋ : ℤ) : ℚ) := by
        rw [h2.1, ← heq] at hle2
        exact le_antisymm hle2 hle1
      have heven : Even ⌊q + 1/2⌋ := by
        by_contra hne
        exact h1 ⟨hexact, hne⟩
      rw [heq] at heven
      exact h2.2 heven
  · omega

theorem round1_mono {q q' : ℚ} (h : q ≤ q') : round1 q ≤ round1 q' := by
  unfold round1
  have : rhe (10 * q) ≤ rhe (10 * q') := rhe_mono (by linarith)
  have h10 : (0 : ℚ) < 10 := by norm_num
  exact (div_le_div_iff_of_pos_right h10).mpr (by exact_mod_cast this)

/-! ## Sorted-list and order-statistic lemmas -/

theorem sortDesc_perm (l : List ℚ) : (sortDesc l).Perm l :=
  List.perm_insertionSort _ l

theorem sortDesc_sorted (l : List ℚ) : List.Sorted (fun a b => a ≥ b) (sortDesc l) :=
  List.sorted_insertionSort _ l

theorem sortDesc_length (l : List ℚ) : (sortDesc l).length = l.length :=
  (sortDesc_perm l).length_eq

theorem sortDesc_congr_perm {l l' : List ℚ} (h : l.Perm l') : sortDesc l = sortDesc l' :=
  List.eq_of_perm_of_sorted (((sortDesc_perm l).trans h).trans (sortDesc_perm l').symm)
    (sortDesc_sorted l) (sortDesc_sorted l')

/-- In a descending-sorted list, later entries are no larger. -/
theorem sortDesc_antitone (l : List ℚ) {i j : ℕ} (hij : i ≤ j)
    (hj : j < (sortDesc l).length) :
    (sortDesc l).getD j 0 ≤ (sortDesc l).getD i 0 := by
  have hi : i < (sortDesc l).length := lt_of_le_of_lt hij hj
  rw [List.getD_eq_getElem _ _ hj, List.getD_eq_getElem _ _ hi]
  exact (sortDesc_sorted l).rel_get_of_le (a := ⟨i, hi⟩) (b := ⟨j, hj⟩) hij

/-- If a predicate holds on the first `m` entries of a list, at least `m`
entries satisfy it. -/
theorem countP_ge_of_head (s : List ℚ) (p : ℚ → Bool) (m : ℕ) (hm : m ≤ s.length)
    (h : ∀ j, j < m → p (s.getD j 0) = true) : m ≤ s.countP p := by
  have hsplit : s = s.take m ++ s.drop m := (List.take_append_drop m s).symm
  have htk : ∀ a ∈ s.take m, p a = true := by
    intro a ha
    obtain ⟨j, hj, hje⟩ := List.mem_iff_getElem.mp ha
    have hjm : j < m := lt_of_lt_of_le hj (by simp [List.length_take])
    have hjs : j < s.length := lt_of_lt_of_le hjm hm
    have : (s.take m)[j] = s[j] := List.getElem_take ..
    rw [this] at hje
    have := h j hjm
    rwa [List.getD_eq_getElem _ _ hjs, hje] at this
  calc m = (s.take m).length := by simp [List.length_take, Nat.min_eq_left hm]
    _ = (s.take m).countP p := (List.countP_eq_length.mpr htk).symm
    _ ≤ (s.take m).countP p + (s.drop m).countP p := Nat.le_add_right _ _
    _ = s.countP p := by rw [← List.countP_append, ← hsplit]

/-- If a predicate fails from index `m` on, at most `m` entries satisfy it. -/
theorem countP_le_of_tail (s : List ℚ) (p : ℚ → Bool) (m : ℕ)
    (h : ∀ j, j < s.length → m ≤ j → p (s.getD j 0) = false) : s.countP p ≤ m := by
  have hsplit : s = s.take m ++ s.drop m := (List.take_append_drop m s).symm
  have hdrop : (s.drop m).countP p = 0 := by
    rw [List.countP_eq_zero]
    intro a ha
    obtain ⟨j, hj, hje⟩ := List.mem_iff_getElem.mp ha
    have hjs : m + j < s.length := by
      have := hj; simp only [List.length_drop] at this; omega
    have : (s.drop m)[j] = s[m + j] := List.getElem_drop ..
    rw [this] at hje
    have := h (m + j) hjs (Nat.le_add_right _ _)
    rw [List.getD_eq_getElem _ _ hjs, hje] at this
    simp [this]
  calc s.countP p = (s.take m).countP p + (s.drop m).countP p := by
        rw [← List.countP_append, ← hsplit]
    _ = (s.take m).countP p := by rw [hdrop, Nat.add_zero]
    _ ≤ (s.take m).length := List.countP_le_length _
    _ ≤ m := by simp [List.length_take]

/-- The `k`-th highest entry (1-indexed) of a pool: at least `k` entries
are ≥ it, fewer than `k` entries exceed it, and it belongs to the pool. -/
theorem kth_counts (l : List ℚ) (k : ℕ) (hk : k ≤ l.length) (hk0 : k ≠ 0) :
    k ≤ l.countP (fun y => decide ((sortDesc l).getD (k - 1) 0 ≤ y)) ∧
    l.countP (fun y => decide ((sortDesc l).getD (k - 1) 0 < y)) < k ∧
    (sortDesc l).getD (k - 1) 0 ∈ l := by
  set r := (sortDesc l).getD (k - 1) 0 with hr
  have hlen : (sortDesc l).length = l.length := sortDesc_length l
  have hks : k ≤ (sortDesc l).length := hlen ▸ hk
  have hcnt1 : ∀ p : ℚ → Bool, l.countP p = (sortDesc l).countP p := by
    intro p; exact ((sortDesc_perm l).countP_eq p).symm
  refine ⟨?_, ?_, ?_⟩
  · rw [hcnt1]
    apply countP_ge_of_head _ _ k hks
    intro j hj
    have : r ≤ (sortDesc l).getD j 0 :=
      sortDesc_antitone l (Nat.le_sub_one_of_lt hj) (lt_of_lt_of_le (by omega) hks)
    simpa using this
  · rw [hcnt1]
    have : (sortDesc l).countP (fun y => decide (r < y)) ≤ k - 1 := by
      apply countP_le_of_tail _ _ (k - 1)
      intro j hj hkj
      have : (sortDesc l).getD j 0 ≤ r := sortDesc_antitone l hkj hj
      simpa using not_lt.mpr this
    omega
  · have hk1 : k - 1 < (sortDesc l).length := by omega
    rw [hr, List.getD_eq_getElem _ _ hk1]
    exact (sortDesc_perm l).mem_iff.mp (List.getElem_mem hk1)

/-- If at least `k` entries of `l` are ≥ `t`, the `k`-th highest is ≥ `t`. -/
theorem le_kth_of_countP_ge (l : List ℚ) (k : ℕ) (t : ℚ) (hk : k ≤ l.length)
    (hk0 : k ≠ 0) (hc : k ≤ l.countP (fun y => decide (t ≤ y))) :
    t ≤ (sortDesc l).getD (k - 1) 0 := by
  by_contra hlt
  push_neg at hlt
  have hcnt : l.countP (fun y => decide (t ≤ y)) ≤ k - 1 := by
    rw [← (sortDesc_perm l).countP_eq]
    apply countP_le_of_tail _ _ (k - 1)
    intro j hj hkj
    have : (sortDesc l).getD j 0 ≤ (sortDesc l).getD (k - 1) 0 := sortDesc_antitone l hkj hj
    have : (sortDesc l).getD j 0 < t := lt_of_le_of_lt this hlt
    simpa using not_le.mpr this
  omega

/-- If fewer than `k` entries of `l` exceed `t`, the `k`-th highest is ≤ `t`. -/
theorem kth_le_of_countP_lt (l : List ℚ) (k : ℕ) (t : ℚ) (hk : k ≤ l.length)
    (hk0 : k ≠ 0) (hc : l.countP (fun y => decide (t < y)) < k) :
    (sortDesc l).getD (k - 1) 0 ≤ t := by
  by_contra hlt
  push_neg at hlt
  have hks : k ≤ (sortDesc l).length := (sortDesc_length l) ▸ hk
  have hcnt : k ≤ l.countP (fun y => decide (t < y)) := by
    rw [← (sortDesc_perm l).countP_eq]
    apply countP_ge_of_head _ _ k hks
    intro j hj
    have : (sortDesc l).getD (k - 1) 0 ≤ (sortDesc l).getD j 0 :=
      sortDesc_antitone l (Nat.le_sub_one_of_lt hj) (lt_of_lt_of_le (by omega) hks)
    simpa using lt_of_lt_of_le hlt this
  omega

/-- The last entry of the descending sort is the minimum of a non-empty list. -/
theorem sortDesc_last_min (l : List ℚ) (hne : l ≠ []) :
    (sortDesc l).getLastD 0 ∈ l ∧ ∀ y ∈ l, (sortDesc l).getLastD 0 ≤ y := by
  have hlen : (sortDesc l).length = l.length := sortDesc_length l
  have hpos : 0 < l.length := List.length_pos.mpr hne
  have hlast : (sortDesc l).getLastD 0 = (sortDesc l).getD ((sortDesc l).length - 1) 0 := by
    rw [List.getLastD_eq_getLast?, List.getLast?_eq_getElem?,
      List.getD_eq_getElem?_getD]
  constructor
  · rw [hlast, List.getD_eq_getElem _ _ (by omega)]
    exact (sortDesc_perm l).mem_iff.mp (List.getElem_mem (by omega))
  · intro y hy
    obtain ⟨j, hj, hje⟩ := List.mem_iff_getElem.mp (((sortDesc_perm l).mem_iff).mpr hy)
    rw [hlast, ← hje, ← List.getD_eq_getElem _ 0 hj]
    exact sortDesc_antitone l (by omega) (by omega)

/-- `replacementLevel` only depends on the pool as a multiset. -/
theorem replacementLevel_congr_perm {l l' : List ℚ} (h : l.Perm l') (ns : ℕ) :
    replacementLevel l ns = replacementLevel l' ns := by
  unfold replacementLevel
  rw [sortDesc_congr_perm h]

theorem replacementLevel_eq_kth (pl : List ℚ) (ns : ℕ) (h1 : ns ≤ pl.length)
    (h2 : ns ≠ 0) : replacementLevel pl ns = (sortDesc pl).getD (ns - 1) 0 := by
  have hcond : ns ≤ (sortDesc pl).length ∧ ns ≠ 0 := ⟨by rw [sortDesc_length]; exact h1, h2⟩
  simp only [replacementLevel]
  rw [if_pos hcond]

theorem replacementLevel_eq_min (pl : List ℚ) (ns : ℕ) (hne : pl ≠ [])
    (hc : ¬(ns ≤ pl.length ∧ ns ≠ 0)) :
    replacementLevel pl ns = (sortDesc pl).getLastD 0 := by
  have hcond : ¬(ns ≤ (sortDesc pl).length ∧ ns ≠ 0) := by
    rw [sortDesc_length]; exact hc
  have hemp : ¬(sortDesc pl).isEmpty := by
    rw [List.isEmpty_iff]
    intro hcon
    apply hne
    have := congrArg List.length hcon
    rw [sortDesc_length] at this
    exact List.length_eq_zero.mp this
  simp only [replacementLevel]
  rw [if_neg hcond, if_pos hemp]

theorem replacementLevel_nil (ns : ℕ) : replacementLevel [] ns = 0 := by
  simp [replacementLevel, sortDesc]

/-- Raising one player's pooled value from `x` to `x'` (appearing `m`
times in the pool) cannot decrease that player's margin over the pool's
replacement level. -/
theorem replacementLevel_swap (ns m : ℕ) (R : List ℚ) (x x' : ℚ) (hx : x ≤ x') :
    x - replacementLevel (List.replicate m x ++ R) ns
      ≤ x' - replacementLevel (List.replicate m x' ++ R) ns := by
  have hlen : (List.replicate m x ++ R).length = (List.replicate m x' ++ R).length := by
    simp
  by_cases hc : ns ≤ (List.replicate m x ++ R).length ∧ ns ≠ 0
  · rw [replacementLevel_eq_kth _ ns hc.1 hc.2,
      replacementLevel_eq_kth _ ns (hlen ▸ hc.1) hc.2]
    set r := (sortDesc (List.replicate m x ++ R)).getD (ns - 1) 0 with hrdef
    have hcountlt := (kth_counts (List.replicate m x ++ R) ns hc.1 hc.2).2.1
    have key : (sortDesc (List.replicate m x' ++ R)).getD (ns - 1) 0 ≤ r + (x' - x) := by
      apply kth_le_of_countP_lt _ ns _ (hlen ▸ hc.1) hc.2
      have e1 : (List.replicate m x' ++ R).countP (fun y => decide (r + (x' - x) < y))
          = (if r + (x' - x) < x' then m else 0)
            + R.countP (fun y => decide (r + (x' - x) < y)) := by
        rw [List.countP_append, List.countP_replicate]
        simp
      have e2 : (List.replicate m x ++ R).countP (fun y => decide (r < y))
          = (if r < x then m else 0) + R.countP (fun y => decide (r < y)) := by
        rw [List.countP_append, List.countP_replicate]
        simp
      have hiff : (r + (x' - x) < x') ↔ (r < x) := by
        constructor <;> intro <;> linarith
      have hmono : R.countP (fun y => decide (r + (x' - x) < y))
          ≤ R.countP (fun y => decide (r < y)) := by
        apply List.countP_mono_left
        intro a _ ha
        simp only [decide_eq_true_eq] at ha ⊢
        linarith
      calc (List.replicate m x' ++ R).countP (fun y => decide (r + (x' - x) < y))
          = (if r + (x' - x) < x' then m else 0)
            + R.countP (fun y => decide (r + (x' - x) < y)) := e1
        _ ≤ (if r < x then m else 0) + R.countP (fun y => decide (r < y)) := by
            rw [if_congr hiff rfl rfl]
            exact Nat.add_le_add_left hmono _
        _ = (List.replicate m x ++ R).countP (fun y => decide (r < y)) := e2.symm
        _ < ns := hcountlt
    linarith
  · by_cases hne : (List.replicate m x ++ R) = []
    · obtain ⟨hrep, hR⟩ := List.append_eq_nil.mp hne
      have hm : m = 0 := by simpa using congrArg List.length hrep
      rw [hm, hR]
      simp only [List.replicate, List.nil_append, replacementLevel_nil]
      linarith
    · have hne' : (List.replicate m x' ++ R) ≠ [] := by
        intro hcon
        apply hne
        obtain ⟨hrep, hR⟩ := List.append_eq_nil.mp hcon
        have hm : m = 0 := by simpa using congrArg List.length hrep
        rw [hm, hR]
        rfl
      rw [replacementLevel_eq_min _ ns hne hc,
        replacementLevel_eq_min _ ns hne' (by rw [← hlen]; exact hc)]
      obtain ⟨hmem, -⟩ := sortDesc_last_min _ hne
      obtain ⟨-, hmin2⟩ := sortDesc_last_min _ hne'
      rcases List.mem_append.mp hmem with hrep | hR
      · have hlx : (sortDesc (List.replicate m x ++ R)).getLastD 0 = x :=
          List.eq_of_mem_replicate hrep
        have hm1 : m ≠ 0 := by
          intro h0
          rw [h0] at hrep
          simp at hrep
        have hx'mem : x' ∈ List.replicate m x' ++ R :=
          List.mem_append_left _ (List.mem_replicate.mpr ⟨hm1, rfl⟩)
        have := hmin2 x' hx'mem
        linarith
      · have := hmin2 _ (List.mem_append_right (List.replicate m x') hR)
        linarith

/-- Changing only the points of row `i` changes each slot pool by
replacing that row's contributed copies (of which there are `m ≥ 0`). -/
theorem rawPool_set (elig : Eligibility) (df : List Player) (i : ℕ)
    (hi : i < df.length) (x' : ℚ) (pos : String) :
    ∃ A B m, rawPool elig df pos = A ++ (List.replicate m df[i].points ++ B) ∧
      rawPool elig (df.set i ⟨df[i].name, df[i].position, x'⟩) pos
        = A ++ (List.replicate m x' ++ B) := by
  have hdf : df = df.take i ++ df[i] :: df.drop (i + 1) := by
    conv_lhs => rw [← List.take_append_drop i df]
    rw [List.getElem_cons_drop]
  have hset : df.set i ⟨df[i].name, df[i].position, x'⟩
      = df.take i ++ ⟨df[i].name, df[i].position, x'⟩ :: df.drop (i + 1) :=
    List.set_eq_take_cons_drop _ hi
  set m := ((get_all_positions df[i].name df[i].position elig).filter
    (fun q => q == pos)).length with hm
  refine ⟨rawPool elig (df.take i) pos, rawPool elig (df.drop (i + 1)) pos, m, ?_, ?_⟩
  · conv_lhs => rw [hdf]
    unfold rawPool
    rw [List.flatMap_append, List.flatMap_cons]
    congr 1
    congr 1
    exact List.map_const _ _
  · rw [hset]
    unfold rawPool
    rw [List.flatMap_append, List.flatMap_cons]
    congr 1
    congr 1
    exact List.map_const _ _

/-- Per-slot margin monotonicity: raising row `i`'s points never
decreases its margin `points - replacementLevel` at any slot. -/
theorem slot_margin_mono (elig : Eligibility) (df : List Player) (i : ℕ)
    (hi : i < df.length) (x' : ℚ) (hx : df[i].points ≤ x') (pos : String) :
    ((replacement_levels elig df pos).map (fun r => df[i].points - r)).getD 0
      ≤ ((replacement_levels elig (df.set i ⟨df[i].name, df[i].position, x'⟩) pos).map
          (fun r => x' - r)).getD 0 := by
  unfold replacement_levels
  cases hsc : starterCount pos with
  | none => simp
  | some ns =>
      have hq : ∀ df₀, pool elig df₀ pos
          = rawPool elig df₀ (if pos == "DH" then "OF" else pos) := by
        intro df₀
        unfold pool
        by_cases h : pos == "DH" <;> simp [h]
      obtain ⟨A, B, m, hP, hP2⟩ :=
        rawPool_set elig df i hi x' (if pos == "DH" then "OF" else pos)
      rw [hq, hq, hP, hP2]
      simp only [Option.map_some', Option.map_map, Option.getD_some, Function.comp]
      have hperm : ∀ y : ℚ, (A ++ (List.replicate m y ++ B)).Perm
          (List.replicate m y ++ (A ++ B)) := by
        intro y
        have h1 : (A ++ List.replicate m y).Perm (List.replicate m y ++ A) :=
          List.perm_append_comm
        have h2 := h1.append_right B
        simpa [List.append_assoc] using h2
      rw [replacementLevel_congr_perm (hperm df[i].points) ns,
        replacementLevel_congr_perm (hperm x') ns]
      exact replacementLevel_swap ns m (A ++ B) _ _ hx

theorem vstep_none {rl : String → Option ℚ} {pts : ℚ} {acc : Option ℚ × String}
    {pos : String} (h : rl pos = none) : vstep rl pts acc pos = acc := by
  simp [vstep, h]

theorem vstep_some_none {rl : String → Option ℚ} {pts : ℚ} {acc : Option ℚ × String}
    {pos : String} {r : ℚ} (h : rl pos = some r) (h2 : acc.1 = none) :
    vstep rl pts acc pos = (some (pts - r), pos) := by
  simp [vstep, h, h2]

theorem vstep_some_some {rl : String → Option ℚ} {pts : ℚ} {acc : Option ℚ × String}
    {pos : String} {r bv : ℚ} (h : rl pos = some r) (h2 : acc.1 = some bv) :
    vstep rl pts acc pos = if bv < pts - r then (some (pts - r), pos) else acc := by
  simp [vstep, h, h2]

/-- One step of the best-VORP fold preserves margin domination of the
accumulators. -/
theorem vstep_mono (rl rl' : String → Option ℚ) (pts pts' : ℚ)
    (hiff : ∀ pos, rl pos = none ↔ rl' pos = none)
    (hdom : ∀ pos r r', rl pos = some r → rl' pos = some r' → pts - r ≤ pts' - r')
    (pos : String) (acc acc' : Option ℚ × String)
    (hinv1 : acc.1 = none ↔ acc'.1 = none)
    (hinv2 : ∀ a b, acc.1 = some a → acc'.1 = some b → a ≤ b) :
    ((vstep rl pts acc pos).1 = none ↔ (vstep rl' pts' acc' pos).1 = none) ∧
    (∀ a b, (vstep rl pts acc pos).1 = some a → (vstep rl' pts' acc' pos).1 = some b
      → a ≤ b) := by
  cases h1 : rl pos with
  | none =>
      rw [vstep_none h1, vstep_none ((hiff pos).mp h1)]
      exact ⟨hinv1, hinv2⟩
  | some r =>
      obtain ⟨r', h2⟩ : ∃ r', rl' pos = some r' := by
        cases h2 : rl' pos with
        | none => exact absurd ((hiff pos).mpr h2) (by simp [h1])
        | some r' => exact ⟨r', rfl⟩
      have hvv : pts - r ≤ pts' - r' := hdom pos r r' h1 h2
      cases ho : acc.1 with
      | none =>
          have ho' : acc'.1 = none := hinv1.mp ho
          rw [vstep_some_none h1 ho, vstep_some_none h2 ho']
          refine ⟨by simp, ?_⟩
          intro a b ha hb
          simp only [Option.some_inj] at ha hb
          rw [← ha, ← hb]
          exact hvv
      | some bv =>
          obtain ⟨bv', ho'⟩ : ∃ bv', acc'.1 = some bv' := by
            cases ho' : acc'.1 with
            | none => exact absurd (hinv1.mpr ho') (by simp [ho])
            | some bv' => exact ⟨bv', rfl⟩
          have hbb : bv ≤ bv' := hinv2 bv bv' ho ho'
          rw [vstep_some_some h1 ho, vstep_some_some h2 ho']
          by_cases hc1 : bv < pts - r <;> by_cases hc2 : bv' < pts' - r'
          · rw [if_pos hc1, if_pos hc2]
            refine ⟨by simp, ?_⟩
            intro a b ha hb
            simp only [Option.some_inj] at ha hb
            rw [← ha, ← hb]
            exact hvv
          · rw [if_pos hc1, if_neg hc2]
            refine ⟨by simp [ho'], ?_⟩
            intro a b ha hb
            rw [ho'] at hb
            simp only [Option.some_inj] at ha hb
            rw [← ha, ← hb]
            push_neg at hc2
            linarith
          · rw [if_neg hc1, if_pos hc2]
            refine ⟨by simp [ho], ?_⟩
            intro a b ha hb
            rw [ho] at ha
            simp only [Option.some_inj] at ha hb
            rw [← ha, ← hb]
            push_neg at hc1
            linarith
          · rw [if_neg hc1, if_neg hc2]
            refine ⟨by simp [ho, ho'], ?_⟩
            intro a b ha hb
            rw [ho] at ha
            rw [ho'] at hb
            simp only [Option.some_inj] at ha hb
            rw [← ha, ← hb]
            exact hbb

/-- The best-VORP fold is monotone under pointwise margin domination. -/
theorem bestFold_fold_mono (rl rl' : String → Option ℚ) (pts pts' : ℚ)
    (hiff : ∀ pos, rl pos = none ↔ rl' pos = none)
    (hdom : ∀ pos r r', rl pos = some r → rl' pos = some r' → pts - r ≤ pts' - r')
    (l : List String) (acc acc' : Option ℚ × String)
    (hinv1 : acc.1 = none ↔ acc'.1 = none)
    (hinv2 : ∀ a b, acc.1 = some a → acc'.1 = some b → a ≤ b) :
    ((l.foldl (vstep rl pts) acc).1 = none ↔ (l.foldl (vstep rl' pts') acc').1 = none) ∧
    (∀ a b, (l.foldl (vstep rl pts) acc).1 = some a
      → (l.foldl (vstep rl' pts') acc').1 = some b → a ≤ b) := by
  induction l generalizing acc acc' with
  | nil => exact ⟨hinv1, hinv2⟩
  | cons pos rest ih =>
      rw [List.foldl_cons, List.foldl_cons]
      obtain ⟨s1, s2⟩ := vstep_mono rl rl' pts pts' hiff hdom pos acc acc' hinv1 hinv2
      exact ih _ _ s1 s2

theorem replacement_levels_none_iff (elig : Eligibility) (df : List Player)
    (pos : String) :
    replacement_levels elig df pos = none ↔ starterCount pos = none := by
  simp [replacement_levels]

/-- Raising row `i`'s projected points never decreases the VORP value
assigned to that row. -/
theorem assignVorp_mono (elig : Eligibility) (df : List Player) (i : ℕ)
    (hi : i < df.length) (x' : ℚ) (hx : df[i].points ≤ x') :
    (assignVorp elig df df[i]).1
      ≤ (assignVorp elig (df.set i ⟨df[i].name, df[i].position, x'⟩)
          ⟨df[i].name, df[i].position, x'⟩).1 := by
  have hdom : ∀ pos r r', replacement_levels elig df pos = some r →
      replacement_levels elig (df.set i ⟨df[i].name, df[i].position, x'⟩) pos = some r' →
      df[i].points - r ≤ x' - r' := by
    intro pos r r' h h2
    have := slot_margin_mono elig df i hi x' hx pos
    rw [h, h2] at this
    simpa using this
  have hiff : ∀ pos, replacement_levels elig df pos = none ↔
      replacement_levels elig (df.set i ⟨df[i].name, df[i].position, x'⟩) pos = none := by
    intro pos
    rw [replacement_levels_none_iff, replacement_levels_none_iff]
  obtain ⟨m1, m2⟩ := bestFold_fold_mono (replacement_levels elig df)
    (replacement_levels elig (df.set i ⟨df[i].name, df[i].position, x'⟩))
    df[i].points x' hiff hdom
    (get_all_positions df[i].name df[i].position elig)
    (none, df[i].position) (none, df[i].position) (by simp) (by simp)
  unfold assignVorp bestFold
  cases hF1 : (List.foldl (vstep (replacement_levels elig df) df[i].points)
      (none, df[i].position) (get_all_positions df[i].name df[i].position elig)).1 with
  | none =>
      cases hF2 : (List.foldl (vstep (replacement_levels elig
          (df.set i ⟨df[i].name, df[i].position, x'⟩)) x')
          (none, df[i].position) (get_all_positions df[i].name df[i].position elig)).1 with
      | none => simp [hF1, hF2]
      | some b =>
          exfalso
          rw [m1.mp hF1] at hF2
          exact Option.noConfusion hF2
  | some a =>
      cases hF2 : (List.foldl (vstep (replacement_levels elig
          (df.set i ⟨df[i].name, df[i].position, x'⟩)) x')
          (none, df[i].position) (get_all_positions df[i].name df[i].position elig)).1 with
      | none =>
          exfalso
          rw [m1.mpr hF2] at hF1
          exact Option.noConfusion hF1
      | some b =>
          simp only [hF1, hF2]
          exact round1_mono (m2 a b hF1 hF2)

theorem le_foldl_max : ∀ (ms : List ℚ) (b : ℚ), b ≤ ms.foldl max b
  | [], _ => le_refl _
  | v :: ms, b => le_trans (le_max_left b v) (le_foldl_max ms (max b v))

theorem foldl_max_init (a : ℚ) : ∀ (ms : List ℚ) (b : ℚ),
    ms.foldl max (max a b) = max a (ms.foldl max b)
  | [], _ => rfl
  | c :: ms, b => by
      rw [List.foldl_cons, List.foldl_cons, max_assoc, foldl_max_init a ms (max b c)]

theorem maximum_cons_foldl : ∀ (v : ℚ) (ms : List ℚ),
    (v :: ms).maximum = some (ms.foldl max v) := by
  intro v ms
  induction ms generalizing v with
  | nil => rfl
  | cons w ms ih =>
      rw [List.maximum_cons, ih w, List.foldl_cons, foldl_max_init v ms w]
      have hc := WithBot.coe_max v (List.foldl max w ms)
      have h1 : (some (List.foldl max w ms) : WithBot ℚ)
          = ((List.foldl max w ms : ℚ) : WithBot ℚ) := rfl
      have h2 : (some (v ⊔ List.foldl max w ms) : WithBot ℚ)
          = ((v ⊔ List.foldl max w ms : ℚ) : WithBot ℚ) := rfl
      rw [h1, h2, ← hc]

/-- Characterization of the best-VORP fold started at an established
best value `bv`: the final best value is the running maximum, and when
it improved on `bv`, the chosen slot is the first one achieving it. -/
theorem bestFold_go (rl : String → Option ℚ) (pts : ℚ) :
    ∀ (l : List String) (bv : ℚ) (bp : String),
      ∃ M, (l.foldl (vstep rl pts) (some bv, bp)).1 = some M ∧
        M = (l.filterMap (fun pos => (rl pos).map (fun r => pts - r))).foldl max bv ∧
        (if bv < M then
          l.find? (fun pos => decide ((rl pos).map (fun r => pts - r) = some M))
            = some (l.foldl (vstep rl pts) (some bv, bp)).2
         else (l.foldl (vstep rl pts) (some bv, bp)) = (some bv, bp)) := by
  intro l
  induction l with
  | nil =>
      intro bv bp
      exact ⟨bv, rfl, rfl, by simp⟩
  | cons pos rest ih =>
      intro bv bp
      rw [List.foldl_cons]
      cases h1 : rl pos with
      | none =>
          rw [vstep_none h1]
          obtain ⟨M, hM1, hM2, hM3⟩ := ih bv bp
          refine ⟨M, hM1, ?_, ?_⟩
          · rw [List.filterMap_cons]
            simp only [h1, Option.map_none']
            exact hM2
          · by_cases hlt : bv < M
            · rw [if_pos hlt]
              rw [if_pos hlt] at hM3
              rw [List.find?_cons]
              have hpred : (decide ((rl pos).map (fun r => pts - r) = some M)) = false := by
                simp [h1]
              rw [hpred]
              exact hM3
            · rw [if_neg hlt]
              rw [if_neg hlt] at hM3
              exact hM3
      | some r =>
          rw [vstep_some_some h1 rfl]
          have hfm : (pos :: rest).filterMap
              (fun pos => (rl pos).map (fun r => pts - r))
              = (pts - r) :: rest.filterMap (fun pos => (rl pos).map (fun r => pts - r)) := by
            rw [List.filterMap_cons]
            simp [h1]
          by_cases hbv : bv < pts - r
          · rw [if_pos hbv]
            obtain ⟨M, hM1, hM2, hM3⟩ := ih (pts - r) pos
            have hMtot : (rest.filterMap (fun pos => (rl pos).map (fun r => pts - r))).foldl
                max (max bv (pts - r)) = M := by
              rw [max_eq_right (le_of_lt hbv)]
              exact hM2.symm
            refine ⟨M, hM1, ?_, ?_⟩
            · rw [hfm, List.foldl_cons]
              exact hMtot.symm
            · have hle : pts - r ≤ M := hM2 ▸ le_foldl_max _ _
              rw [if_pos (lt_of_lt_of_le hbv hle)]
              rw [List.find?_cons]
              by_cases heq : pts - r = M
              · have hpred : (decide ((rl pos).map (fun r => pts - r) = some M)) = true := by
                  simp [h1, heq]
                rw [hpred]
                have : ¬ (pts - r < M) := by rw [heq]; exact lt_irrefl M
                rw [if_neg this] at hM3
                rw [hM3]
              · have hpred : (decide ((rl pos).map (fun r => pts - r) = some M)) = false := by
                  simp [h1]
                  exact heq
                rw [hpred]
                have hlt2 : pts - r < M := lt_of_le_of_ne hle heq
                rw [if_pos hlt2] at hM3
                exact hM3
          · rw [if_neg hbv]
            obtain ⟨M, hM1, hM2, hM3⟩ := ih bv bp
            have hvle : pts - r ≤ bv := not_lt.mp hbv
            refine ⟨M, hM1, ?_, ?_⟩
            · rw [hfm, List.foldl_cons, max_eq_left hvle]
              exact hM2
            · by_cases hlt : bv < M
              · rw [if_pos hlt]
                rw [if_pos hlt] at hM3
                rw [List.find?_cons]
                have hpred : (decide ((rl pos).map (fun r => pts - r) = some M)) = false := by
                  simp [h1]
                  intro hcon
                  rw [hcon] at hvle
                  exact absurd (lt_of_le_of_lt hvle hlt) (lt_irrefl M)
                rw [hpred]
                exact hM3
              · rw [if_neg hlt]
                rw [if_neg hlt] at hM3
                exact hM3

/-- Top-level characterization of the best-VORP fold: its value is the
maximum margin over the slots with a replacement level, and its slot is
the first one achieving that maximum. -/
theorem bestFold_spec (rl : String → Option ℚ) (pts : ℚ) :
    ∀ (l : List String) (prim : String) (M : ℚ),
      (l.filterMap (fun pos => (rl pos).map (fun r => pts - r))).maximum = some M →
      (bestFold rl pts l prim).1 = some M ∧
      l.find? (fun pos => decide ((rl pos).map (fun r => pts - r) = some M))
        = some (bestFold rl pts l prim).2 := by
  intro l
  induction l with
  | nil =>
      intro prim M hM
      exact absurd hM (by simp)
  | cons pos rest ih =>
      intro prim M hM
      unfold bestFold
      rw [List.foldl_cons]
      cases h1 : rl pos with
      | none =>
          rw [vstep_none h1]
          have hfm : (pos :: rest).filterMap (fun pos => (rl pos).map (fun r => pts - r))
              = rest.filterMap (fun pos => (rl pos).map (fun r => pts - r)) := by
            rw [List.filterMap_cons]
            simp [h1]
          rw [hfm] at hM
          obtain ⟨g1, g2⟩ := ih prim M hM
          refine ⟨g1, ?_⟩
          rw [List.find?_cons]
          have hpred : (decide ((rl pos).map (fun r => pts - r) = some M)) = false := by
            simp [h1]
          rw [hpred]
          exact g2
      | some r =>
          rw [vstep_some_none h1 rfl]
          have hfm : (pos :: rest).filterMap (fun pos => (rl pos).map (fun r => pts - r))
              = (pts - r) :: rest.filterMap (fun pos => (rl pos).map (fun r => pts - r)) := by
            rw [List.filterMap_cons]
            simp [h1]
          rw [hfm, maximum_cons_foldl] at hM
          have hMeq : M = (rest.filterMap (fun pos => (rl pos).map (fun r => pts - r))).foldl
              max (pts - r) := by
            have := Option.some_inj.mp hM
            exact this.symm
          obtain ⟨M2, hM1, hM2, hM3⟩ := bestFold_go rl pts rest (pts - r) pos
          have hMM : M2 = M := by rw [hM2, hMeq]
          subst hMM
          refine ⟨hM1, ?_⟩
          rw [List.find?_cons]
          have hle : pts - r ≤ M2 := hM2 ▸ le_foldl_max _ _
          by_cases heq : pts - r = M2
          · have hpred : (decide ((rl pos).map (fun r => pts - r) = some M2)) = true := by
              simp [h1, heq]
            rw [hpred]
            have : ¬ (pts - r < M2) := by rw [heq]; exact lt_irrefl M2
            rw [if_neg this] at hM3
            rw [hM3]
          · have hpred : (decide ((rl pos).map (fun r => pts - r) = some M2)) = false := by
              simp [h1]
              exact heq
            rw [hpred]
            have hlt2 : pts - r < M2 := lt_of_le_of_ne hle heq
            rw [if_pos hlt2] at hM3
            exact hM3

/-! ## Average-rank lemmas -/

theorem prefixCounts_eq_range (v : ℚ) : ∀ (l : List ℚ) (k : ℕ),
    prefixCounts v l k = List.range' (k + 1) (l.countP (fun y => decide (y = v)))
  | [], k => by simp [prefixCounts]
  | y :: ys, k => by
      rw [List.countP_cons]
      by_cases h : y = v
      · rw [prefixCounts, if_pos h, prefixCounts_eq_range v ys (k + 1)]
        have hd : (decide (y = v)) = true := by simp [h]
        rw [hd]
        norm_num
        rw [List.range'_succ]
      · rw [prefixCounts, if_neg h, prefixCounts_eq_range v ys k]
        have hd : (decide (y = v)) = false := by simp [h]
        rw [hd]
        norm_num

theorem sum_range'_gauss : ∀ (t k : ℕ), 2 * (List.range' (k + 1) t).sum = t * (2 * k + t + 1)
  | 0, _ => by simp
  | t + 1, k => by
      rw [List.range'_succ, List.sum_cons]
      have ih := sum_range'_gauss t (k + 1)
      calc 2 * ((k + 1) + (List.range' (k + 1 + 1) t).sum)
          = 2 * (k + 1) + 2 * (List.range' (k + 1 + 1) t).sum := by ring
        _ = 2 * (k + 1) + t * (2 * (k + 1) + t + 1) := by rw [ih]
        _ = (t + 1) * (2 * k + (t + 1) + 1) := by ring

theorem sum_map_const_add (c : ℕ) : ∀ (L : List ℕ),
    (L.map (fun k => c + k)).sum = L.length * c + L.sum
  | [] => by simp
  | k :: L => by
      rw [List.map_cons, List.sum_cons, List.sum_cons, sum_map_const_add c L,
        List.length_cons]
      ring

/-- The within-group counts that feed the average rank are exactly
`1, 2, …, t` (t = multiplicity of `v`). -/
theorem enum_group_counts (v : ℚ) : ∀ (l pre : List ℚ),
    ((l.enumFrom pre.length).filter (fun e => decide (e.2 = v))).map
        (fun e => ((pre ++ l).take (e.1 + 1)).countP (fun y => decide (y = v)))
      = prefixCounts v l (pre.countP (fun y => decide (y = v)))
  | [], pre => by simp [prefixCounts]
  | x :: xs, pre => by
      have hx : (pre ++ x :: xs) = (pre ++ [x]) ++ xs := by
        rw [List.append_assoc]
        rfl
      have htake : (pre ++ x :: xs).take (pre.length + 1) = pre ++ [x] := by
        rw [hx, List.take_append_eq_append_take]
        have h1 : (pre ++ [x]).length = pre.length + 1 := by simp
        rw [List.take_of_length_le (by simp)]
        have h2 : pre.length + 1 - (pre ++ [x]).length = 0 := by simp
        rw [h2, List.take_zero, List.append_nil]
      have hrec := enum_group_counts v xs (pre ++ [x])
      have hlen : (pre ++ [x]).length = pre.length + 1 := by simp
      rw [hlen] at hrec
      rw [List.enumFrom_cons]
      by_cases h : x = v
      · have hdec : (decide ((x : ℚ) = v)) = true := by simp [h]
        rw [List.filter_cons]
        simp only [hdec, if_pos, List.map_cons]
        rw [htake]
        have hcnt : (pre ++ [x]).countP (fun y => decide (y = v))
            = pre.countP (fun y => decide (y = v)) + 1 := by
          rw [List.countP_append]
          simp [hdec]
        rw [hcnt] at hrec
        rw [prefixCounts, if_pos h]
        refine congrArg₂ _ ?_ ?_
        · rw [hcnt]
        · rw [← hrec]
          apply List.map_congr_left
          intro e _
          rw [hx]
      · have hdec : (decide ((x : ℚ) = v)) = false := by simp [h]
        rw [List.filter_cons]
        simp only [hdec, Bool.false_eq_true, if_neg, not_false_iff]
        have hcnt : (pre ++ [x]).countP (fun y => decide (y = v))
            = pre.countP (fun y => decide (y = v)) := by
          rw [List.countP_append]
          simp [hdec]
        rw [hcnt] at hrec
        rw [prefixCounts, if_neg h, ← hrec]
        apply List.map_congr_left
        intro e _
        rw [hx]

/-- pandas's average rank, descending, in closed form: the number of
strictly greater entries plus `(ties + 1) / 2`. -/
theorem rankAvgDesc_closed (l : List ℚ) (v : ℚ) (hv : v ∈ l) :
    rankAvgDesc l v = (l.countP (fun y => decide (v < y)) : ℚ)
      + ((l.countP (fun y => decide (y = v)) : ℚ) + 1) / 2 := by
  set c := l.countP (fun y => decide (v < y)) with hc
  set t := l.countP (fun y => decide (y = v)) with ht
  have ht0 : 0 < t := by
    rw [ht]
    rw [List.countP_pos_iff]
    exact ⟨v, hv, by simp⟩
  have hmap1 : (l.enum.filter (fun e => decide (e.2 = v))).map
      (fun e => (rankFirstOfDesc l e.1 e.2 : ℚ))
      = ((l.enum.filter (fun e => decide (e.2 = v))).map
          (fun e => c + (l.take (e.1 + 1)).countP (fun y => decide (y = v)))).map
        (fun n : ℕ => (n : ℚ)) := by
    rw [List.map_map]
    apply List.map_congr_left
    intro e he
    have h2 : e.2 = v := by
      have := (List.mem_filter.mp he).2
      simpa using this
    simp only [Function.comp]
    rw [rankFirstOfDesc, h2, hc]
  have hmap2 : (l.enum.filter (fun e => decide (e.2 = v))).map
      (fun e => c + (l.take (e.1 + 1)).countP (fun y => decide (y = v)))
      = ((l.enum.filter (fun e => decide (e.2 = v))).map
          (fun e => (l.take (e.1 + 1)).countP (fun y => decide (y = v)))).map
        (fun k => c + k) := by
    rw [List.map_map]
    rfl
  have hgroup : (l.enum.filter (fun e => decide (e.2 = v))).map
      (fun e => (l.take (e.1 + 1)).countP (fun y => decide (y = v)))
      = List.range' 1 t := by
    have h0 : l.enum = l.enumFrom (([] : List ℚ)).length := by
      rw [List.enum_eq_enumFrom]
      rfl
    have := enum_group_counts v l []
    rw [List.nil_append] at this
    rw [h0, this]
    have : ([] : List ℚ).countP (fun y => decide (y = v)) = 0 := rfl
    rw [this, prefixCounts_eq_range, ht]
  have hNsum : ((l.enum.filter (fun e => decide (e.2 = v))).map
      (fun e => c + (l.take (e.1 + 1)).countP (fun y => decide (y = v)))).sum
      = t * c + (List.range' 1 t).sum := by
    rw [hmap2, hgroup, sum_map_const_add, List.length_range']
  have hgauss : 2 * (List.range' 1 t).sum = t * (t + 1) := by
    simpa using sum_range'_gauss t 0
  have hcast : (((l.enum.filter (fun e => decide (e.2 = v))).map
      (fun e => c + (l.take (e.1 + 1)).countP (fun y => decide (y = v)))).map
        (fun n : ℕ => (n : ℚ))).sum
      = ((((l.enum.filter (fun e => decide (e.2 = v))).map
          (fun e => c + (l.take (e.1 + 1)).countP (fun y => decide (y = v)))).sum : ℕ) : ℚ) :=
    (Nat.cast_list_sum _).symm
  have htQ : ((t : ℕ) : ℚ) ≠ 0 := by
    exact_mod_cast Nat.pos_iff_ne_zero.mp ht0
  set S := (List.range' 1 t).sum with hS
  have hSn : S * 2 = t * (t + 1) := by
    rw [Nat.mul_comm]
    exact hgauss
  have hSQ : ((S : ℕ) : ℚ) * 2 = (t : ℚ) * ((t : ℚ) + 1) := by
    exact_mod_cast congrArg (fun n : ℕ => (n : ℚ)) hSn
  unfold rankAvgDesc
  rw [hmap1, hcast, hNsum, ← ht]
  push_cast
  rw [div_eq_iff htQ]
  ring_nf
  ring_nf at hSQ
  linarith [hSQ]

/-! ## Misc helper lemmas for the claim theorems -/

theorem STARTERS_entry_pos : ∀ pr ∈ STARTERS, 0 < pr.2 := by decide

theorem starterCount_pos {pos : String} {ns : ℕ} (h : starterCount pos = some ns) :
    0 < ns := by
  unfold starterCount at h
  cases hf : STARTERS.find? (fun e => e.1 == pos) with
  | none =>
      rw [hf] at h
      exact absurd h (by simp)
  | some e =>
      rw [hf] at h
      simp only [Option.map_some', Option.some_inj] at h
      have hmem := List.mem_of_find?_eq_some hf
      have := STARTERS_entry_pos e hmem
      omega

theorem bestFold_all_none (rl : String → Option ℚ) (pts : ℚ) (prim : String) :
    ∀ l : List String, (∀ pos ∈ l, rl pos = none) →
      bestFold rl pts l prim = (none, prim) := by
  intro l
  unfold bestFold
  induction l with
  | nil => intro _; rfl
  | cons pos rest ih =>
      intro h
      rw [List.foldl_cons, vstep_none (h pos (List.mem_cons_self pos rest))]
      exact ih (fun q hq => h q (List.mem_cons_of_mem pos hq))

theorem filterMap_map_eq_filter_map {α β γ : Type} (l : List α) (g : α → Option β)
    (F : α → β → γ) (d : β) :
    l.filterMap (fun s => (g s).map (F s))
      = (l.filter (fun s => (g s).isSome)).map (fun s => F s ((g s).getD d)) := by
  induction l with
  | nil => rfl
  | cons x xs ih =>
      rw [List.filterMap_cons, List.filter_cons]
      cases hg : g x with
      | none => simp [hg, ih]
      | some b => simp [hg, ih]

/-! ## Claim theorems -/

/-- Claim C3: the scoring function applied to the hitter scenario row
{H:150, 2B:30, 3B:2, HR:25, R:90, RBI:95, BB:60, K:120, SB:10} at OF
returns exactly 394, and applied to the pitcher scenario row
{IP:180, ER:60, K:200, SV:0, H_allowed:150, BB_issued:50, QS:20, CG:1,
NH:0, PG:0, HLD:0} at SP returns exactly 464. -/
theorem C3_scoring_scenarios :
    calculate_points ⟨"OF", statsOf [("H", 150), ("2B", 30), ("3B", 2), ("HR", 25),
      ("R", 90), ("RBI", 95), ("BB", 60), ("K", 120), ("SB", 10)]⟩ = some 394 ∧
    calculate_points ⟨"SP", statsOf [("IP", 180), ("ER", 60), ("K", 200), ("SV", 0),
      ("H_allowed", 150), ("BB_issued", 50), ("QS", 20), ("CG", 1), ("NH", 0),
      ("PG", 0), ("HLD", 0)]⟩ = some 464 := by
  constructor
  · simp [calculate_points, statsOf, hitter_positions, pitcher_positions, List.find?]
    norm_num
  · simp [calculate_points, statsOf, hitter_positions, pitcher_positions, List.find?]
    norm_num

/-- Claim C9: aggregation fails with the no-sources error exactly when
zero projection sources are available, and succeeds (produces the
available-source list, raising no error) when at least one is. -/
theorem C9_no_sources_gate : ∀ (α : Type) (fp fg br : Option α),
    (combine_available fp fg br
        = Except.error "No projection sources available. Run fetch scripts first."
      ↔ fp = none ∧ fg = none ∧ br = none) ∧
    ((∃ l, combine_available fp fg br = Except.ok l)
      ↔ ¬(fp = none ∧ fg = none ∧ br = none)) := by
  intro α fp fg br
  cases fp <;> cases fg <;> cases br <;> simp [combine_available]

/-- Claim C10: a player none of whose eligible positions is among the
configured starter slots is assigned VORP exactly 0.0 and their primary
position as bestSlot, regardless of their projected points. -/
theorem C10_no_starter_slot (elig : Eligibility) (df : List Player) (p : Player)
    (h : ∀ pos ∈ get_all_positions p.name p.position elig, starterCount pos = none) :
    assignVorp elig df p = (0, p.position) := by
  have hrl : ∀ pos ∈ get_all_positions p.name p.position elig,
      replacement_levels elig df pos = none := by
    intro pos hp
    rw [replacement_levels, h pos hp]
    rfl
  unfold assignVorp
  rw [bestFold_all_none _ _ _ _ hrl]

/-- Witness for C10: a 1000-point player whose only position label `P`
is not a starter slot gets VORP 0 and bestSlot `P`. -/
theorem C10_no_starter_slot_witness :
    (∀ pos ∈ get_all_positions "Ohtani" "P" [], starterCount pos = none) ∧
    assignVorp [] [⟨"Ohtani", "P", 1000⟩] ⟨"Ohtani", "P", 1000⟩ = (0, "P") :=
  ⟨by decide, C10_no_starter_slot [] [⟨"Ohtani", "P", 1000⟩] ⟨"Ohtani", "P", 1000⟩
    (by decide)⟩

/-- Claim C6: for a non-empty subset of the configured sources, each
renormalized weight is the configured weight divided by the sum of the
available sources' configured weights, and the renormalized weights sum
to exactly 1 (in rational arithmetic). -/
theorem C6_normalize_weights (available : List String)
    (h1 : available ≠ [])
    (h2 : ∀ s ∈ available, s = "fp" ∨ s = "fg" ∨ s = "br") :
    (∀ s ∈ available, normalize_weights available s
        = weightOf s / (available.map weightOf).sum) ∧
    (available.map (normalize_weights available)).sum = 1 := by
  have w1 : weightOf "fp" = 45/100 := rfl
  have w2 : weightOf "fg" = 35/100 := rfl
  have w3 : weightOf "br" = 20/100 := rfl
  have hpos : ∀ s ∈ available, 0 < weightOf s := by
    intro s hs
    rcases h2 s hs with h | h | h <;> rw [h]
    · rw [w1]; norm_num
    · rw [w2]; norm_num
    · rw [w3]; norm_num
  have htot : 0 < (available.map weightOf).sum := by
    apply List.sum_pos
    · intro x hx
      obtain ⟨s, hs, rfl⟩ := List.mem_map.mp hx
      exact hpos s hs
    · intro hcon
      rw [List.map_eq_nil_iff] at hcon
      exact h1 hcon
  refine ⟨fun s _ => rfl, ?_⟩
  have hrw : (available.map (normalize_weights available))
      = available.map (fun s => weightOf s * ((available.map weightOf).sum)⁻¹) := by
    apply List.map_congr_left
    intro s _
    rw [normalize_weights, div_eq_mul_inv]
  rw [hrw, List.sum_map_mul_right]
  exact mul_inv_cancel₀ (ne_of_gt htot)

/-- Witness for C6: with only FantasyPros and BBRef available the
renormalized weights are 0.45/0.65 and 0.20/0.65 and sum to 1. -/
theorem C6_normalize_weights_witness :
    ((["fp", "br"] : List String) ≠ []) ∧
    (∀ s ∈ (["fp", "br"] : List String), s = "fp" ∨ s = "fg" ∨ s = "br") ∧
    ((∀ s ∈ (["fp", "br"] : List String), normalize_weights ["fp", "br"] s
        = weightOf s / ((["fp", "br"].map weightOf).sum)) ∧
      (["fp", "br"].map (normalize_weights ["fp", "br"])).sum = 1) :=
  ⟨by simp, by decide, C6_normalize_weights ["fp", "br"] (by simp) (by decide)⟩

/-- Claim C7 counterexample: a pitcher row with IP, K, QS present but
with the stats the claim calls optional (here SV and HLD) absent gets no
score at all (`row["SV"]` raises KeyError), contradicting the claim that
a defined score is still returned. -/
theorem C7_counterexample :
    calculate_points ⟨"SP", statsOf [("IP", 180), ("K", 200), ("QS", 20)]⟩ = none := by
  simp [calculate_points, statsOf, hitter_positions, pitcher_positions, List.find?]

/-- Claim C7 (amended): for every pitcher row, ER, H_allowed, BB_issued,
CG, NH, PG may be absent and are treated as 0, but IP, K, SV, QS and HLD
are read by direct indexing: the function returns a score exactly when
all five are present, and raises KeyError (no score) otherwise. -/
theorem C7_pitcher_optional_stats (row : Row)
    (hpos : row.position ∈ pitcher_positions) :
    calculate_points row =
      if ((row.stats "IP").isSome ∧ (row.stats "K").isSome ∧ (row.stats "SV").isSome
          ∧ (row.stats "QS").isSome ∧ (row.stats "HLD").isSome) then
        some ((row.stats "IP").getD 0 * 3 + ((row.stats "ER").getD 0) * (-2)
          + (row.stats "K").getD 0 * 1 + (row.stats "SV").getD 0 * 5
          + (((row.stats "H_allowed").getD ((row.stats "HA").getD 0)) * (-1))
          + (((row.stats "BB_issued").getD ((row.stats "BBI").getD 0)) * (-1))
          + (row.stats "QS").getD 0 * 2 + ((row.stats "CG").getD 0) * 4
          + ((row.stats "NH").getD 0) * 6 + ((row.stats "PG").getD 0) * 10
          + (row.stats "HLD").getD 0 * 2)
      else none := by
  have h3 : row.position = "SP" ∨ row.position = "RP" ∨ row.position = "P" := by
    simpa [pitcher_positions] using hpos
  have hh : row.position ∉ hitter_positions := by
    rcases h3 with h | h | h <;> rw [h] <;> decide
  unfold calculate_points
  rw [if_neg hh, if_pos hpos]
  cases h1 : row.stats "IP" <;> cases h2 : row.stats "K" <;> cases h3 : row.stats "SV"
    <;> cases h4 : row.stats "QS" <;> cases h5 : row.stats "HLD" <;>
    simp [h1, h2, h3, h4, h5]

/-- Witness for C7 (amended): a pitcher row carrying IP, K, SV, QS, HLD
gets the defined score with the absent optional stats treated as 0. -/
theorem C7_pitcher_optional_stats_witness :
    (("SP" : String) ∈ pitcher_positions) ∧
    calculate_points ⟨"SP", statsOf [("IP", 180), ("K", 200), ("SV", 3), ("QS", 20),
        ("HLD", 4)]⟩ =
      (if (((⟨"SP", statsOf [("IP", 180), ("K", 200), ("SV", 3), ("QS", 20), ("HLD", 4)]⟩ :
            Row).stats "IP").isSome
          ∧ ((⟨"SP", statsOf [("IP", 180), ("K", 200), ("SV", 3), ("QS", 20), ("HLD", 4)]⟩ :
            Row).stats "K").isSome
          ∧ ((⟨"SP", statsOf [("IP", 180), ("K", 200), ("SV", 3), ("QS", 20), ("HLD", 4)]⟩ :
            Row).stats "SV").isSome
          ∧ ((⟨"SP", statsOf [("IP", 180), ("K", 200), ("SV", 3), ("QS", 20), ("HLD", 4)]⟩ :
            Row).stats "QS").isSome
          ∧ ((⟨"SP", statsOf [("IP", 180), ("K", 200), ("SV", 3), ("QS", 20), ("HLD", 4)]⟩ :
            Row).stats "HLD").isSome) then
        some (((⟨"SP", statsOf [("IP", 180), ("K", 200), ("SV", 3), ("QS", 20), ("HLD", 4)]⟩ :
            Row).stats "IP").getD 0 * 3
          + (((⟨"SP", statsOf [("IP", 180), ("K", 200), ("SV", 3), ("QS", 20), ("HLD", 4)]⟩ :
            Row).stats "ER").getD 0) * (-2)
          + ((⟨"SP", statsOf [("IP", 180), ("K", 200), ("SV", 3), ("QS", 20), ("HLD", 4)]⟩ :
            Row).stats "K").getD 0 * 1
          + ((⟨"SP", statsOf [("IP", 180), ("K", 200), ("SV", 3), ("QS", 20), ("HLD", 4)]⟩ :
            Row).stats "SV").getD 0 * 5
          + ((((⟨"SP", statsOf [("IP", 180), ("K", 200), ("SV", 3), ("QS", 20), ("HLD", 4)]⟩ :
            Row).stats "H_allowed").getD
              (((⟨"SP", statsOf [("IP", 180), ("K", 200), ("SV", 3), ("QS", 20), ("HLD", 4)]⟩ :
            Row).stats "HA").getD 0)) * (-1))
          + ((((⟨"SP", statsOf [("IP", 180), ("K", 200), ("SV", 3), ("QS", 20), ("HLD", 4)]⟩ :
            Row).stats "BB_issued").getD
              (((⟨"SP", statsOf [("IP", 180), ("K", 200), ("SV", 3), ("QS", 20), ("HLD", 4)]⟩ :
            Row).stats "BBI").getD 0)) * (-1))
          + ((⟨"SP", statsOf [("IP", 180), ("K", 200), ("SV", 3), ("QS", 20), ("HLD", 4)]⟩ :
            Row).stats "QS").getD 0 * 2
          + (((⟨"SP", statsOf [("IP", 180), ("K", 200), ("SV", 3), ("QS", 20), ("HLD", 4)]⟩ :
            Row).stats "CG").getD 0) * 4
          + (((⟨"SP", statsOf [("IP", 180), ("K", 200), ("SV", 3), ("QS", 20), ("HLD", 4)]⟩ :
            Row).stats "NH").getD 0) * 6
          + (((⟨"SP", statsOf [("IP", 180), ("K", 200), ("SV", 3), ("QS", 20), ("HLD", 4)]⟩ :
            Row).stats "PG").getD 0) * 10
          + ((⟨"SP", statsOf [("IP", 180), ("K", 200), ("SV", 3), ("QS", 20), ("HLD", 4)]⟩ :
            Row).stats "HLD").getD 0 * 2)
      else none) :=
  ⟨by decide,
   C7_pitcher_optional_stats
     ⟨"SP", statsOf [("IP", 180), ("K", 200), ("SV", 3), ("QS", 20), ("HLD", 4)]⟩
     (by decide)⟩

/-- Claim C5: the aggregated stat equals the weighted sum over the
sources that matched AND supplied the stat, divided by the sum of just
those sources' weights, rounded to one decimal; sources lacking the stat
contribute to neither sum, and a zero weight total yields 0. -/
theorem C5_weighted_stat (srcs : List Src) (stat : String)
    (hw : ∀ s ∈ srcs, 0 < s.weight) :
    combineStat srcs stat =
      if ((srcs.filter (fun s => (s.stats stat).isSome && s.matched)).map (fun s => s.weight)).sum = 0
      then 0
      else round1 ((((srcs.filter (fun s => (s.stats stat).isSome && s.matched)).map
            (fun s => (s.stats stat).getD 0 * s.weight)).sum)
        / (((srcs.filter (fun s => (s.stats stat).isSome && s.matched)).map
            Src.weight).sum)) := by
  have hv : (srcs.filter (fun s => s.matched)).filterMap
        (fun s => (s.stats stat).map (· * s.weight))
      = (srcs.filter (fun s => (s.stats stat).isSome && s.matched)).map
          (fun s => (s.stats stat).getD 0 * s.weight) := by
    have h := filterMap_map_eq_filter_map (srcs.filter (fun s => s.matched))
      (fun s => s.stats stat) (fun s v => v * s.weight) 0
    rw [List.filter_filter] at h
    exact h
  have hwgt : (srcs.filter (fun s => s.matched)).filterMap
        (fun s => (s.stats stat).map (fun _ => s.weight))
      = (srcs.filter (fun s => (s.stats stat).isSome && s.matched)).map (fun s => s.weight) := by
    have h := filterMap_map_eq_filter_map (srcs.filter (fun s => s.matched))
      (fun s => s.stats stat) (fun s _ => s.weight) 0
    rw [List.filter_filter] at h
    exact h
  simp only [combineStat]
  rw [hv, hwgt]
  by_cases hemp : srcs.filter (fun s => (s.stats stat).isSome && s.matched) = []
  · rw [hemp]
    simp
  · have hsum : 0 < ((srcs.filter (fun s => (s.stats stat).isSome && s.matched)).map
        Src.weight).sum := by
      apply List.sum_pos
      · intro x hx
        obtain ⟨s, hs, rfl⟩ := List.mem_map.mp hx
        exact hw s (List.mem_of_mem_filter hs)
      · intro hcon
        rw [List.map_eq_nil_iff] at hcon
        exact hemp hcon
    rw [if_neg (ne_of_gt hsum)]
    have hne : ¬ ((srcs.filter (fun s => (s.stats stat).isSome && s.matched)).map
        Src.weight).isEmpty := by
      rw [List.isEmpty_iff, List.map_eq_nil_iff]
      exact hemp
    rw [if_pos hne]

/-- Witness for C5: two matched sources, one lacking the stat — the
missing source contributes neither value nor weight. -/
theorem C5_weighted_stat_witness :
    (∀ s ∈ [(⟨true, 1, statsOf [("HR", 30)]⟩ : Src), ⟨true, 2, statsOf []⟩], 0 < s.weight) ∧
    combineStat [(⟨true, 1, statsOf [("HR", 30)]⟩ : Src), ⟨true, 2, statsOf []⟩] "HR" =
      (if ((([(⟨true, 1, statsOf [("HR", 30)]⟩ : Src), ⟨true, 2, statsOf []⟩].filter
            (fun s => (s.stats "HR").isSome && s.matched)).map (fun s => s.weight)).sum = 0)
      then 0
      else round1 (((([(⟨true, 1, statsOf [("HR", 30)]⟩ : Src), ⟨true, 2, statsOf []⟩].filter
            (fun s => (s.stats "HR").isSome && s.matched)).map
              (fun s => (s.stats "HR").getD 0 * s.weight)).sum)
        / ((([(⟨true, 1, statsOf [("HR", 30)]⟩ : Src), ⟨true, 2, statsOf []⟩].filter
            (fun s => (s.stats "HR").isSome && s.matched)).map (fun s => s.weight)).sum))) :=
  ⟨by
    intro s hs
    fin_cases hs <;> norm_num,
   C5_weighted_stat [(⟨true, 1, statsOf [("HR", 30)]⟩ : Src), ⟨true, 2, statsOf []⟩] "HR"
     (by
       intro s hs
       fin_cases hs <;> norm_num)⟩

/-- Claim C2: for every starter slot, the replacement level is the
`starterCount`-th highest pool entry (characterized by its order
statistics: at least `starterCount` entries are ≥ it and fewer exceed
it) when the pool is large enough, the pool minimum when the pool is
non-empty but smaller, and 0 when the pool is empty. -/
theorem C2_replacement_level (pos : String) (ns : ℕ)
    (hsc : starterCount pos = some ns) (elig : Eligibility) (df : List Player) :
    replacement_levels elig df pos = some (replacementLevel (pool elig df pos) ns) ∧
    ((pool elig df pos = [] ∧ replacementLevel (pool elig df pos) ns = 0) ∨
     (pool elig df pos ≠ [] ∧ (pool elig df pos).length < ns ∧
       replacementLevel (pool elig df pos) ns ∈ pool elig df pos ∧
       ∀ y ∈ pool elig df pos, replacementLevel (pool elig df pos) ns ≤ y) ∨
     (ns ≤ (pool elig df pos).length ∧
       ns ≤ (pool elig df pos).countP
           (fun y => decide (replacementLevel (pool elig df pos) ns ≤ y)) ∧
       (pool elig df pos).countP
           (fun y => decide (replacementLevel (pool elig df pos) ns < y)) < ns ∧
       replacementLevel (pool elig df pos) ns ∈ pool elig df pos)) := by
  have hns0 : ns ≠ 0 := Nat.pos_iff_ne_zero.mp (starterCount_pos hsc)
  refine ⟨by rw [replacement_levels, hsc]; rfl, ?_⟩
  by_cases hemp : pool elig df pos = []
  · left
    exact ⟨hemp, by rw [hemp, replacementLevel_nil]⟩
  · by_cases hlen : ns ≤ (pool elig df pos).length
    · right; right
      have h := kth_counts (pool elig df pos) ns hlen hns0
      rw [replacementLevel_eq_kth (pool elig df pos) ns hlen hns0]
      exact ⟨hlen, h.1, h.2.1, h.2.2⟩
    · right; left
      push_neg at hlen
      rw [replacementLevel_eq_min (pool elig df pos) ns hemp (by omega)]
      have h := sortDesc_last_min (pool elig df pos) hemp
      exact ⟨hemp, hlen, h.1, h.2⟩

/-- Witness for C2: slot C with starter count 12 over a one-player pool
falls into the "pool smaller than starterCount" case: the replacement
level is the pool minimum. -/
theorem C2_replacement_level_witness :
    (starterCount "C" = some 12) ∧
    (replacement_levels [] [⟨"A", "C", 3⟩] "C"
        = some (replacementLevel (pool [] [⟨"A", "C", 3⟩] "C") 12) ∧
      ((pool [] [⟨"A", "C", 3⟩] "C" = [] ∧
          replacementLevel (pool [] [⟨"A", "C", 3⟩] "C") 12 = 0) ∨
       (pool [] [⟨"A", "C", 3⟩] "C" ≠ [] ∧ (pool [] [⟨"A", "C", 3⟩] "C").length < 12 ∧
         replacementLevel (pool [] [⟨"A", "C", 3⟩] "C") 12 ∈ pool [] [⟨"A", "C", 3⟩] "C" ∧
         ∀ y ∈ pool [] [⟨"A", "C", 3⟩] "C",
           replacementLevel (pool [] [⟨"A", "C", 3⟩] "C") 12 ≤ y) ∨
       (12 ≤ (pool [] [⟨"A", "C", 3⟩] "C").length ∧
         12 ≤ (pool [] [⟨"A", "C", 3⟩] "C").countP
             (fun y => decide (replacementLevel (pool [] [⟨"A", "C", 3⟩] "C") 12 ≤ y)) ∧
         (pool [] [⟨"A", "C", 3⟩] "C").countP
             (fun y => decide (replacementLevel (pool [] [⟨"A", "C", 3⟩] "C") 12 < y)) < 12 ∧
         replacementLevel (pool [] [⟨"A", "C", 3⟩] "C") 12 ∈ pool [] [⟨"A", "C", 3⟩] "C"))) :=
  ⟨by decide, C2_replacement_level "C" 12 (by decide) [] [⟨"A", "C", 3⟩]⟩

/-- Claim C1 counterexample: with players A (C, 10 pts) and B (C, 0.04
pts), A's only margin is 10 − 0.04 = 9.96, but the VORP assigned by
compute_vorp is round(9.96, 1) = 10.0 ≠ 9.96 — the assigned VORP is not
the raw maximum. -/
theorem C1_counterexample :
    replacement_levels [] [⟨"A", "C", 10⟩, ⟨"B", "C", 1/25⟩] "C" = some (1/25) ∧
    get_all_positions "A" "C" [] = ["C"] ∧
    (assignVorp [] [⟨"A", "C", 10⟩, ⟨"B", "C", 1/25⟩] ⟨"A", "C", 10⟩).1 = 10 ∧
    (10 : ℚ) ≠ 10 - 1/25 := by
  refine ⟨?_, by decide, ?_, by norm_num⟩
  · norm_num [replacement_levels, starterCount, STARTERS, TEAMS, pool, rawPool,
      get_all_positions, eligLookup, replacementLevel, sortDesc, List.insertionSort,
      List.orderedInsert, List.find?]
  · norm_num [assignVorp, bestFold, vstep, replacement_levels, starterCount, STARTERS,
      TEAMS, pool, rawPool, get_all_positions, eligLookup, replacementLevel, sortDesc,
      List.insertionSort, List.orderedInsert, List.find?, round1, rhe, Int.floor_eq_iff]

/-- Claim C1 (amended): each player's assigned VORP is the maximum, over
their eligible slots having a replacement level, of (points − that
slot's replacement level), rounded to one decimal place; the assigned
bestSlot is the first eligible slot (primary position first) achieving
that maximum. -/
theorem C1_vorp_assignment (elig : Eligibility) (df : List Player) (p : Player)
    (M : ℚ)
    (hM : ((get_all_positions p.name p.position elig).filterMap
        (fun pos => (replacement_levels elig df pos).map (fun r => p.points - r))).maximum
      = some M) :
    (assignVorp elig df p).1 = round1 M ∧
    (get_all_positions p.name p.position elig).find?
        (fun pos => decide ((replacement_levels elig df pos).map (fun r => p.points - r)
          = some M))
      = some (assignVorp elig df p).2 := by
  obtain ⟨h1, h2⟩ := bestFold_spec (replacement_levels elig df) p.points
    (get_all_positions p.name p.position elig) p.position M hM
  constructor
  · simp only [assignVorp, h1]
  · simpa only [assignVorp] using h2

/-- Witness for C1 (amended): players A (C, 10) and B (C, 2) give A the
margin maximum 8 at slot C; A's VORP is round1 8 and bestSlot the first
slot achieving 8. -/
theorem C1_vorp_assignment_witness :
    (((get_all_positions "A" "C" []).filterMap
        (fun pos => (replacement_levels [] [⟨"A", "C", 10⟩, ⟨"B", "C", 2⟩] pos).map
          (fun r => (10 : ℚ) - r))).maximum = some 8) ∧
    ((assignVorp [] [⟨"A", "C", 10⟩, ⟨"B", "C", 2⟩] ⟨"A", "C", 10⟩).1 = round1 8 ∧
      (get_all_positions "A" "C" []).find?
          (fun pos => decide ((replacement_levels [] [⟨"A", "C", 10⟩, ⟨"B", "C", 2⟩] pos).map
            (fun r => (10 : ℚ) - r) = some 8))
        = some (assignVorp [] [⟨"A", "C", 10⟩, ⟨"B", "C", 2⟩] ⟨"A", "C", 10⟩).2) :=
  ⟨by
    norm_num +decide [get_all_positions, eligLookup, replacement_levels, starterCount,
      STARTERS, TEAMS, pool, rawPool, replacementLevel, sortDesc, List.insertionSort,
      List.orderedInsert, List.find?, List.maximum_cons, List.filterMap_cons,
      List.filterMap_nil],
   C1_vorp_assignment [] [⟨"A", "C", 10⟩, ⟨"B", "C", 2⟩] ⟨"A", "C", 10⟩ 8
     (by
       norm_num +decide [get_all_positions, eligLookup, replacement_levels, starterCount,
         STARTERS, TEAMS, pool, rawPool, replacementLevel, sortDesc, List.insertionSort,
         List.orderedInsert, List.find?, List.maximum_cons, List.filterMap_cons,
         List.filterMap_nil])⟩

/-- Claim C8 counterexample: the single catcher at 5 points is their own
pool's replacement level, so after raising their points to 9 the margin
at their only eligible slot C is still 0 = 0 — raising the points did
not strictly increase the margin. -/
theorem C8_counterexample :
    (5 : ℚ) < 9 ∧
    replacement_levels [] [⟨"A", "C", 5⟩] "C" = some 5 ∧
    replacement_levels [] ([⟨"A", "C", 5⟩].set 0 ⟨"A", "C", 9⟩) "C" = some 9 ∧
    (5 : ℚ) - 5 = (9 : ℚ) - 9 := by
  refine ⟨by norm_num, ?_, ?_, by norm_num⟩
  · norm_num [replacement_levels, starterCount, STARTERS, TEAMS, pool, rawPool,
      get_all_positions, eligLookup, replacementLevel, sortDesc, List.insertionSort,
      List.orderedInsert, List.find?]
  · norm_num [replacement_levels, starterCount, STARTERS, TEAMS, pool, rawPool,
      get_all_positions, eligLookup, replacementLevel, sortDesc, List.insertionSort,
      List.orderedInsert, List.find?, List.set]

/-- Claim C8 (amended): strictly increasing one player's projected
points (all other players fixed) never decreases the quantity
(points − replacement level) at any slot, and never decreases the VORP
value assigned to that player. -/
theorem C8_points_monotone (elig : Eligibility) (df : List Player) (i : ℕ) (x' : ℚ)
    (hi : i < df.length) (hx : df[i].points < x') :
    (∀ pos, ((replacement_levels elig df pos).map (fun r => df[i].points - r)).getD 0
        ≤ ((replacement_levels elig (df.set i ⟨df[i].name, df[i].position, x'⟩) pos).map
            (fun r => x' - r)).getD 0)
    ∧ (assignVorp elig df df[i]).1
        ≤ (assignVorp elig (df.set i ⟨df[i].name, df[i].position, x'⟩)
            ⟨df[i].name, df[i].position, x'⟩).1 :=
  ⟨fun pos => slot_margin_mono elig df i hi x' (le_of_lt hx) pos,
   assignVorp_mono elig df i hi x' (le_of_lt hx)⟩

/-- Witness for C8 (amended): raising the lone catcher from 5 to 9
points leaves all slot margins and the assigned VORP no smaller. -/
theorem C8_points_monotone_witness :
    (0 < ([⟨"A", "C", 5⟩] : List Player).length) ∧
    (([⟨"A", "C", 5⟩] : List Player).get ⟨0, by norm_num⟩).points < 9 ∧
    ((∀ pos, ((replacement_levels [] [⟨"A", "C", 5⟩] pos).map
          (fun r => (([⟨"A", "C", 5⟩] : List Player).get ⟨0, by norm_num⟩).points - r)).getD 0
        ≤ ((replacement_levels []
              (([⟨"A", "C", 5⟩] : List Player).set 0
                ⟨(([⟨"A", "C", 5⟩] : List Player).get ⟨0, by norm_num⟩).name,
                  (([⟨"A", "C", 5⟩] : List Player).get ⟨0, by norm_num⟩).position, 9⟩) pos).map
            (fun r => (9 : ℚ) - r)).getD 0)
      ∧ (assignVorp [] [⟨"A", "C", 5⟩]
            (([⟨"A", "C", 5⟩] : List Player).get ⟨0, by norm_num⟩)).1
        ≤ (assignVorp []
            (([⟨"A", "C", 5⟩] : List Player).set 0
              ⟨(([⟨"A", "C", 5⟩] : List Player).get ⟨0, by norm_num⟩).name,
                (([⟨"A", "C", 5⟩] : List Player).get ⟨0, by norm_num⟩).position, 9⟩)
            ⟨(([⟨"A", "C", 5⟩] : List Player).get ⟨0, by norm_num⟩).name,
              (([⟨"A", "C", 5⟩] : List Player).get ⟨0, by norm_num⟩).position, 9⟩).1) :=
  ⟨by norm_num, by norm_num,
   C8_points_monotone [] [⟨"A", "C", 5⟩] 0 9 (by norm_num) (by norm_num)⟩

/-- Claim C4 counterexample: on VORPs [10, 10, 5] pandas's default rank
(average method, truncated to int) yields VORP_Ranks [1, 1, 3], not the
dense ranks [1, 1, 2] the claim asserts. -/
theorem C4_counterexample :
    (compute_value_score [((10 : ℚ), (1 : ℚ)), (10, 2), (5, 3)]).map (fun e => e.1)
        = [1, 1, 3] ∧
    ([((10 : ℚ), (1 : ℚ)), (10, 2), (5, 3)].map
        (fun r => (rankDenseDesc ([((10 : ℚ), (1 : ℚ)), (10, 2), (5, 3)].map (fun x => x.1))
          r.1 : ℤ)))
        = [1, 1, 2] ∧
    ([1, 1, 3] : List ℤ) ≠ [1, 1, 2] := by
  refine ⟨?_, ?_, by decide⟩
  · norm_num +decide [compute_value_score, rankAvgDesc, rankFirstOfDesc, rankFirstOfAsc,
      pyInt, List.enum, List.enumFrom, List.countP_cons, List.countP_nil, List.filter,
      List.take, Int.floor_eq_iff]
  · norm_num +decide [rankDenseDesc, List.dedup, List.countP_cons, List.countP_nil]

/-- Claim C4 (amended): VORP_Rank is pandas's default average rank over
VORP descending, truncated toward zero to an int — each row gets
(number of strictly greater VORPs) + (ties + 1)/2, truncated;
ADP_Rank is the rank over ADP ascending with "first" (stable) tie
breaking; and Value = ADP_Rank − VORP_Rank. -/
theorem C4_value_score (rows : List (ℚ × ℚ)) (i : ℕ) (hi : i < rows.length) :
    (compute_value_score rows)[i]? = some
      (pyInt ((((rows.map (fun r => r.1)).countP
            (fun y => decide (rows[i].1 < y)) : ℕ) : ℚ)
          + ((((rows.map (fun r => r.1)).countP
            (fun y => decide (y = rows[i].1)) : ℕ) : ℚ) + 1) / 2),
        ((rankFirstOfAsc (rows.map (fun r => r.2)) i rows[i].2 : ℕ) : ℤ),
        ((rankFirstOfAsc (rows.map (fun r => r.2)) i rows[i].2 : ℕ) : ℤ)
          - pyInt ((((rows.map (fun r => r.1)).countP
              (fun y => decide (rows[i].1 < y)) : ℕ) : ℚ)
            + ((((rows.map (fun r => r.1)).countP
              (fun y => decide (y = rows[i].1)) : ℕ) : ℚ) + 1) / 2)) := by
  have hlen : i < rows.enum.length := by
    rw [List.enum_length]
    exact hi
  have hmem : rows[i].1 ∈ rows.map (fun r => r.1) :=
    List.mem_map.mpr ⟨rows[i], List.getElem_mem hi, rfl⟩
  simp only [compute_value_score]
  rw [List.getElem?_map, List.getElem?_eq_getElem hlen, List.getElem_enum]
  simp only [Option.map_some']
  rw [rankAvgDesc_closed _ _ hmem]

/-- Witness for C4 (amended): on rows (VORP, ADP) = (10,1), (10,2),
(5,3), row 0 gets VORP_Rank trunc(0 + 3/2) = 1, ADP_Rank 1, Value 0. -/
theorem C4_value_score_witness :
    (0 < ([((10 : ℚ), (1 : ℚ)), (10, 2), (5, 3)] : List (ℚ × ℚ)).length) ∧
    (compute_value_score [((10 : ℚ), (1 : ℚ)), (10, 2), (5, 3)])[0]? = some
      (pyInt (((([((10 : ℚ), (1 : ℚ)), (10, 2), (5, 3)].map (fun r => r.1)).countP
            (fun y => decide (([((10 : ℚ), (1 : ℚ)), (10, 2), (5, 3)] :
              List (ℚ × ℚ))[0].1 < y)) : ℕ) : ℚ)
          + (((([((10 : ℚ), (1 : ℚ)), (10, 2), (5, 3)].map (fun r => r.1)).countP
            (fun y => decide (y = ([((10 : ℚ), (1 : ℚ)), (10, 2), (5, 3)] :
              List (ℚ × ℚ))[0].1)) : ℕ) : ℚ) + 1) / 2),
        ((rankFirstOfAsc ([((10 : ℚ), (1 : ℚ)), (10, 2), (5, 3)].map (fun r => r.2)) 0
          ([((10 : ℚ), (1 : ℚ)), (10, 2), (5, 3)] : List (ℚ × ℚ))[0].2 : ℕ) : ℤ),
        ((rankFirstOfAsc ([((10 : ℚ), (1 : ℚ)), (10, 2), (5, 3)].map (fun r => r.2)) 0
          ([((10 : ℚ), (1 : ℚ)), (10, 2), (5, 3)] : List (ℚ × ℚ))[0].2 : ℕ) : ℤ)
          - pyInt (((([((10 : ℚ), (1 : ℚ)), (10, 2), (5, 3)].map (fun r => r.1)).countP
              (fun y => decide (([((10 : ℚ), (1 : ℚ)), (10, 2), (5, 3)] :
                List (ℚ × ℚ))[0].1 < y)) : ℕ) : ℚ)
            + (((([((10 : ℚ), (1 : ℚ)), (10, 2), (5, 3)].map (fun r => r.1)).countP
              (fun y => decide (y = ([((10 : ℚ), (1 : ℚ)), (10, 2), (5, 3)] :
                List (ℚ × ℚ))[0].1)) : ℕ) : ℚ) + 1) / 2)) :=
  ⟨by norm_num,
   C4_value_score [((10 : ℚ), (1 : ℚ)), (10, 2), (5, 3)] 0 (by norm_num)⟩

end FantasyDraft
